import Mathlib

/-!
Verification development for the rbuild workcache engine.

The definitions below are a shallow embedding of the memoizing execution
engine in src/rbuild/workcache.rs and of the freshness predicates in
src/rbuild/context.rs.  The Rust TreeMap is embedded as an association
list ordered by a character-lexicographic comparison on strings
(matching the ordering of owned strings used by TreeMap); in-place
mutation is embedded as explicit state passing; task spawning plus the
single-use channel of exec_work is embedded by evaluating the body
closure directly, an Option result standing for the possibility that
the spawned task fails; file system reads are embedded as lookups in an
explicit file-system map, with the content-hash function a parameter.
-/

/-- Character-lexicographic strict order on lists of characters, the
embedding of the byte-lexicographic order that TreeMap uses for owned
string keys. -/
def strLtb : List Char → List Char → Bool
  | [], [] => false
  | [], _ :: _ => true
  | _ :: _, [] => false
  | a :: as, b :: bs =>
    if a.toNat < b.toNat then true
    else if b.toNat < a.toNat then false
    else strLtb as bs

/-- Strict order on strings used for TreeMap key ordering. -/
def strLt (a b : String) : Bool := strLtb a.data b.data

theorem strLtb_irrefl (l : List Char) : strLtb l l = false := by
  induction l with
  | nil => rfl
  | cons c cs ih => simp [strLtb, ih]

theorem strLtb_asymm (a b : List Char) (h : strLtb a b = true) : strLtb b a = false := by
  induction a generalizing b with
  | nil =>
    cases b with
    | nil => simp [strLtb] at h
    | cons y ys => simp [strLtb]
  | cons x xs ih =>
    cases b with
    | nil => simp [strLtb] at h
    | cons y ys =>
      simp only [strLtb] at h ⊢
      by_cases hxy : x.toNat < y.toNat
      · have : ¬ y.toNat < x.toNat := by omega
        simp [hxy, this]
      · by_cases hyx : y.toNat < x.toNat
        · simp [hxy, hyx] at h
        · simp [hxy, hyx] at h ⊢
          exact ih ys h

theorem strLtb_trans (a b c : List Char) (hab : strLtb a b = true)
    (hbc : strLtb b c = true) : strLtb a c = true := by
  induction a generalizing b c with
  | nil =>
    cases c with
    | nil =>
      cases b with
      | nil => simp [strLtb] at hab
      | cons y ys => simp [strLtb] at hbc
    | cons z zs => simp [strLtb]
  | cons x xs ih =>
    cases b with
    | nil => simp [strLtb] at hab
    | cons y ys =>
      cases c with
      | nil => simp [strLtb] at hbc
      | cons z zs =>
        simp only [strLtb] at hab hbc ⊢
        by_cases hxy : x.toNat < y.toNat
        · by_cases hyz : y.toNat < z.toNat
          · have : x.toNat < z.toNat := by omega
            simp [this]
          · by_cases hzy : z.toNat < y.toNat
            · simp [hyz, hzy] at hbc
            · have hyz2 : y.toNat = z.toNat := by omega
              have : x.toNat < z.toNat := by omega
              simp [this]
        · by_cases hyx : y.toNat < x.toNat
          · simp [hxy, hyx] at hab
          · have hxy2 : x.toNat = y.toNat := by omega
            by_cases hyz : y.toNat < z.toNat
            · have : x.toNat < z.toNat := by omega
              simp [this]
            · by_cases hzy : z.toNat < y.toNat
              · simp [hyz, hzy] at hbc
              · have hyz2 : y.toNat = z.toNat := by omega
                have h1 : ¬ x.toNat < z.toNat := by omega
                have h2 : ¬ z.toNat < x.toNat := by omega
                simp [hxy, hyx] at hab
                simp [hyz, hzy] at hbc
                simp [h1, h2]
                exact ih ys zs hab hbc

theorem strLtb_eq_of_not_lt (a b : List Char) (h1 : strLtb a b = false)
    (h2 : strLtb b a = false) : a = b := by
  induction a generalizing b with
  | nil =>
    cases b with
    | nil => rfl
    | cons y ys => simp [strLtb] at h1
  | cons x xs ih =>
    cases b with
    | nil => simp [strLtb] at h2
    | cons y ys =>
      simp only [strLtb] at h1 h2
      by_cases hxy : x.toNat < y.toNat
      · simp [hxy] at h1
      · by_cases hyx : y.toNat < x.toNat
        · simp [hyx, hxy] at h2
        · simp [hxy, hyx] at h1 h2
          have hn : x.toNat = y.toNat := by omega
          have hc : x = y := by
            apply Char.eq_of_val_eq
            apply UInt32.eq_of_toBitVec_eq
            apply BitVec.eq_of_toNat_eq
            simpa [Char.toNat, UInt32.toNat] using hn
          rw [hc, ih ys h1 h2]

theorem strLt_irrefl (a : String) : strLt a a = false := strLtb_irrefl a.data

theorem strLt_asymm (a b : String) (h : strLt a b = true) : strLt b a = false :=
  strLtb_asymm a.data b.data h

theorem strLt_trans (a b c : String) (hab : strLt a b = true)
    (hbc : strLt b c = true) : strLt a c = true :=
  strLtb_trans a.data b.data c.data hab hbc

theorem strLt_eq_of_not_lt (a b : String) (h1 : strLt a b = false)
    (h2 : strLt b a = false) : a = b := by
  cases a with
  | mk da =>
    cases b with
    | mk db => exact congrArg String.mk (strLtb_eq_of_not_lt da db h1 h2)

theorem strLt_of_ne (a b : String) (h : a ≠ b) :
    strLt a b = true ∨ strLt b a = true := by
  by_cases h1 : strLt a b = true
  · exact Or.inl h1
  · by_cases h2 : strLt b a = true
    · exact Or.inr h2
    · exact absurd (strLt_eq_of_not_lt a b (by simpa using h1) (by simpa using h2)) h

theorem strLt_ne (a b : String) (h : strLt a b = true) : a ≠ b := by
  intro he
  subst he
  rw [strLt_irrefl] at h
  exact Bool.false_ne_true h

/-- Lookup in an association list, the embedding of TreeMap find. -/
def listFind {α : Type} (k : String) : List (String × α) → Option α
  | [] => none
  | (k2, v) :: rest => if k = k2 then some v else listFind k rest

/-- Ordered insert-or-overwrite, the embedding of TreeMap insert: the
new pair is placed before the first strictly larger key, and replaces
an equal key in place. -/
def listInsert {α : Type} (k : String) (v : α) : List (String × α) → List (String × α)
  | [] => [(k, v)]
  | (k2, v2) :: rest =>
    if strLt k k2 then (k, v) :: (k2, v2) :: rest
    else if k = k2 then (k, v) :: rest
    else (k2, v2) :: listInsert k v rest

/-- Replace the value stored at an existing key, the embedding of the
find_mut plus in-place mutation used by insert_work_key. -/
def listUpdate {α : Type} (k : String) (v : α) : List (String × α) → List (String × α)
  | [] => []
  | (k2, v2) :: rest =>
    if k = k2 then (k, v) :: rest else (k2, v2) :: listUpdate k v rest

/-- Keys occur in strictly increasing order: the TreeMap invariant. -/
def SortedKeys {α : Type} (l : List (String × α)) : Prop :=
  l.Pairwise (fun p q => strLt p.1 q.1 = true)

theorem listFind_insert_self {α : Type} (k : String) (v : α) (l : List (String × α)) :
    listFind k (listInsert k v l) = some v := by
  induction l with
  | nil => simp [listInsert, listFind]
  | cons p rest ih =>
    obtain ⟨k2, v2⟩ := p
    by_cases h1 : strLt k k2 = true
    · simp [listInsert, h1, listFind]
    · by_cases h2 : k = k2
      · subst h2
        simp [listInsert, strLt_irrefl, listFind]
      · simp [listInsert, h1, h2, listFind, ih]

theorem listFind_insert_ne {α : Type} (k k2 : String) (v : α) (l : List (String × α))
    (h : k ≠ k2) : listFind k (listInsert k2 v l) = listFind k l := by
  induction l with
  | nil => simp [listInsert, listFind, h]
  | cons p rest ih =>
    obtain ⟨k3, v3⟩ := p
    by_cases h1 : strLt k2 k3 = true
    · simp [listInsert, h1, listFind, h]
    · by_cases h2 : k2 = k3
      · subst h2
        simp [listInsert, h1, listFind, h]
      · by_cases h3 : k = k3
        · simp [listInsert, h1, h2, listFind, h3]
        · simp [listInsert, h1, h2, listFind, h3, ih]

theorem listInsert_absorb {α : Type} (k : String) (x y : α) (l : List (String × α)) :
    listInsert k x (listInsert k y l) = listInsert k x l := by
  induction l with
  | nil => simp [listInsert, strLt_irrefl]
  | cons p rest ih =>
    obtain ⟨k2, v2⟩ := p
    by_cases h1 : strLt k k2 = true
    · simp [listInsert, h1, strLt_irrefl]
    · by_cases h2 : k = k2
      · simp [listInsert, h1, h2, strLt_irrefl]
      · simp [listInsert, h1, h2, ih]

theorem listInsert_comm_lt {α : Type} (a b : String) (x y : α) (hab : strLt a b = true)
    (l : List (String × α)) :
    listInsert a x (listInsert b y l) = listInsert b y (listInsert a x l) := by
  have hba : strLt b a = false := strLt_asymm a b hab
  have hne : a ≠ b := strLt_ne a b hab
  have hne2 : b ≠ a := fun h => hne h.symm
  induction l with
  | nil => simp [listInsert, hab, hba, hne, hne2]
  | cons p rest ih =>
    obtain ⟨k2, v2⟩ := p
    by_cases ha1 : strLt a k2 = true
    · by_cases hb1 : strLt b k2 = true
      · simp [listInsert, ha1, hb1, hab, hba, hne2]
      · by_cases hb2 : b = k2
        · subst hb2
          simp [listInsert, ha1, hb1, hab, hba, hne2, strLt_irrefl]
        · simp [listInsert, ha1, hb1, hb2, hab, hba, hne2]
    · by_cases ha2 : a = k2
      · subst ha2
        have hb1 : strLt b a = false := hba
        have hb2 : b ≠ a := hne2
        simp [listInsert, ha1, hb1, hb2, hab, strLt_irrefl]
      · have hk2a : strLt k2 a = true := by
          rcases strLt_of_ne a k2 ha2 with h | h
          · exact absurd h ha1
          · exact h
        have hb1 : strLt b k2 = false := by
          by_cases hb : strLt b k2 = true
          · have : strLt b a = true := strLtb_trans _ _ _ hb hk2a
            rw [this] at hba
            exact absurd hba (by simp)
          · simpa using hb
        have hb2 : b ≠ k2 := by
          intro h
          subst h
          have : strLt b a = true := hk2a
          rw [this] at hba
          exact absurd hba (by simp)
        by_cases hbk : strLt k2 b = true
        · simp [listInsert, ha1, ha2, hb1, hb2, ih]
        · have : b = k2 := strLt_eq_of_not_lt b k2 hb1 (by simpa using hbk)
          exact absurd this hb2

theorem listInsert_comm {α : Type} (a b : String) (x y : α) (hab : a ≠ b)
    (l : List (String × α)) :
    listInsert a x (listInsert b y l) = listInsert b y (listInsert a x l) := by
  rcases strLt_of_ne a b hab with h | h
  · exact listInsert_comm_lt a b x y h l
  · exact (listInsert_comm_lt b a y x h l).symm

theorem mem_listInsert {α : Type} (k : String) (v : α) (l : List (String × α))
    (p : String × α) (h : p ∈ listInsert k v l) : p = (k, v) ∨ p ∈ l := by
  induction l with
  | nil =>
    simp [listInsert] at h
    exact Or.inl h
  | cons q rest ih =>
    obtain ⟨k2, v2⟩ := q
    by_cases h1 : strLt k k2 = true
    · simp [listInsert, h1] at h
      rcases h with h | h | h
      · exact Or.inl h
      · exact Or.inr (by simp [h])
      · exact Or.inr (by simp [h])
    · by_cases h2 : k = k2
      · subst h2
        simp [listInsert, strLt_irrefl] at h
        rcases h with h | h
        · exact Or.inl (by simp [h])
        · exact Or.inr (by simp [h])
      · simp [listInsert, h1, h2] at h
        rcases h with h | h
        · exact Or.inr (by simp [h])
        · rcases ih h with h3 | h3
          · exact Or.inl h3
          · exact Or.inr (by simp [h3])

theorem sortedKeys_listInsert {α : Type} (k : String) (v : α) (l : List (String × α))
    (hs : SortedKeys l) : SortedKeys (listInsert k v l) := by
  induction l with
  | nil => simp [listInsert, SortedKeys]
  | cons q rest ih =>
    obtain ⟨k2, v2⟩ := q
    rw [SortedKeys, List.pairwise_cons] at hs
    obtain ⟨hall, hrest⟩ := hs
    by_cases h1 : strLt k k2 = true
    · have he : listInsert k v ((k2, v2) :: rest) = (k, v) :: (k2, v2) :: rest := by
        simp [listInsert, h1]
      rw [SortedKeys, he, List.pairwise_cons]
      constructor
      · intro q hq
        rcases List.mem_cons.mp hq with hq | hq
        · simp [hq, h1]
        · exact strLt_trans _ _ _ h1 (hall q hq)
      · rw [List.pairwise_cons]
        exact ⟨hall, hrest⟩
    · by_cases h2 : k = k2
      · subst h2
        have he : listInsert k v ((k, v2) :: rest) = (k, v) :: rest := by
          simp [listInsert, strLt_irrefl]
        rw [SortedKeys, he, List.pairwise_cons]
        exact ⟨fun q hq => hall q hq, hrest⟩
      · have hk2k : strLt k2 k = true := by
          rcases strLt_of_ne k k2 h2 with h4 | h4
          · exact absurd h4 h1
          · exact h4
        have he : listInsert k v ((k2, v2) :: rest) = (k2, v2) :: listInsert k v rest := by
          simp [listInsert, h1, h2]
        rw [SortedKeys, he, List.pairwise_cons]
        constructor
        · intro q hq
          rcases mem_listInsert k v rest q hq with h3 | h3
          · simp [h3, hk2k]
          · exact hall q h3
        · exact ih hrest

theorem listFind_some_mem {α : Type} (k : String) (w : α) (l : List (String × α))
    (h : listFind k l = some w) : (k, w) ∈ l := by
  induction l with
  | nil => simp [listFind] at h
  | cons q rest ih =>
    obtain ⟨k2, v2⟩ := q
    by_cases h2 : k = k2
    · subst h2
      simp [listFind] at h
      simp [h]
    · simp [listFind, h2] at h
      simp [ih h]

theorem listInsert_eq_listUpdate_of_found {α : Type} (k : String) (v : α)
    (l : List (String × α)) (hs : SortedKeys l) (w : α) (h : listFind k l = some w) :
    listInsert k v l = listUpdate k v l := by
  induction l with
  | nil => simp [listFind] at h
  | cons q rest ih =>
    obtain ⟨k2, v2⟩ := q
    rw [SortedKeys, List.pairwise_cons] at hs
    obtain ⟨hall, hrest⟩ := hs
    by_cases h2 : k = k2
    · subst h2
      simp [listInsert, listUpdate, strLt_irrefl]
    · simp [listFind, h2] at h
      have hmem : (k, w) ∈ rest := listFind_some_mem k w rest h
      have hlt : strLt k2 k = true := hall (k, w) hmem
      have h1 : strLt k k2 = false := strLt_asymm k2 k hlt
      simp [listInsert, listUpdate, h1, h2, ih hrest h]

/-- One fact identifier: kind selects the freshness predicate, name
disambiguates facts of the same kind (struct WorkKey). -/
structure WorkKey where
  kind : String
  name : String
deriving DecidableEq

/-- Inner level of a WorkMap: kind to serialized value (struct KindMap). -/
abbrev KindMap := List (String × String)

/-- Two-level map from name to kind to serialized value (struct WorkMap). -/
abbrev WorkMap := List (String × KindMap)

/-- WorkMap::new. -/
def WorkMap.new : WorkMap := []

/-- WorkMap::insert_work_key: if the name already has a kind map the
pair is inserted into it in place, otherwise a fresh singleton kind map
is inserted under the name. -/
def WorkMap.insert_work_key (m : WorkMap) (k : WorkKey) (value : String) : WorkMap :=
  match listFind k.name m with
  | some km => listUpdate k.name (listInsert k.kind value km) m
  | none => listInsert k.name [(k.kind, value)] m

/-- Kind map stored under a name, empty when the name is absent. -/
def getKindMap (m : WorkMap) (name : String) : KindMap :=
  (listFind name m).getD []

/-- Order-insensitive reformulation of insert_work_key used in proofs. -/
def insertCanon (m : WorkMap) (k : WorkKey) (value : String) : WorkMap :=
  listInsert k.name (listInsert k.kind value (getKindMap m k.name)) m

/-- Invariant of a WorkMap built by insertions: both levels sorted. -/
def WMInv (m : WorkMap) : Prop :=
  SortedKeys m ∧ ∀ p ∈ m, SortedKeys p.2

theorem insert_work_key_eq_canon (m : WorkMap) (k : WorkKey) (value : String)
    (hs : SortedKeys m) : WorkMap.insert_work_key m k value = insertCanon m k value := by
  rw [WorkMap.insert_work_key, insertCanon, getKindMap]
  cases hfind : listFind k.name m with
  | none => simp [listInsert]
  | some km =>
    simp only [Option.getD_some]
    exact (listInsert_eq_listUpdate_of_found k.name _ m hs _ hfind).symm

theorem insertCanon_sorted (m : WorkMap) (k : WorkKey) (value : String)
    (hs : SortedKeys m) : SortedKeys (insertCanon m k value) :=
  sortedKeys_listInsert _ _ _ hs

theorem insertCanon_inv (m : WorkMap) (k : WorkKey) (value : String)
    (h : WMInv m) : WMInv (insertCanon m k value) := by
  obtain ⟨hs, hin⟩ := h
  refine ⟨insertCanon_sorted m k value hs, ?_⟩
  intro p hp
  rcases mem_listInsert _ _ _ _ hp with hpe | hpm
  · subst hpe
    simp only
    apply sortedKeys_listInsert
    rw [getKindMap]
    cases hfind : listFind k.name m with
    | none => simp [SortedKeys]
    | some km =>
      simp only [Option.getD_some]
      exact hin (k.name, km) (listFind_some_mem _ _ _ hfind)
  · exact hin p hpm

theorem insertCanon_comm (m : WorkMap) (k1 k2 : WorkKey) (v1 v2 : String)
    (h : k1 ≠ k2) :
    insertCanon (insertCanon m k1 v1) k2 v2 = insertCanon (insertCanon m k2 v2) k1 v1 := by
  obtain ⟨kd1, n1⟩ := k1
  obtain ⟨kd2, n2⟩ := k2
  by_cases hn : n1 = n2
  · subst hn
    have hk : kd1 ≠ kd2 := by
      intro hk
      exact h (by rw [hk])
    simp only [insertCanon, getKindMap]
    rw [listFind_insert_self, listFind_insert_self]
    simp only [Option.getD_some]
    rw [listInsert_absorb, listInsert_absorb,
        listInsert_comm kd2 kd1 v2 v1 (fun he => hk he.symm)]
  · simp only [insertCanon, getKindMap]
    rw [listFind_insert_ne n2 n1 _ m (fun he => hn he.symm),
        listFind_insert_ne n1 n2 _ m hn,
        listInsert_comm n2 n1 _ _ (fun he => hn he.symm)]

theorem foldl_canon_perm {l₁ l₂ : List (WorkKey × String)} (h : l₁.Perm l₂) :
    ∀ m : WorkMap, (l₁.map Prod.fst).Nodup →
      List.foldl (fun m p => insertCanon m p.1 p.2) m l₁ =
      List.foldl (fun m p => insertCanon m p.1 p.2) m l₂ := by
  induction h with
  | nil =>
    intro m _
    rfl
  | cons x h ih =>
    intro m hnd
    simp only [List.foldl_cons]
    refine ih _ ?_
    simp only [List.map_cons, List.nodup_cons] at hnd
    exact hnd.2
  | swap x y l =>
    intro m hnd
    simp only [List.foldl_cons]
    have hxy : y.1 ≠ x.1 := by
      simp only [List.map_cons, List.nodup_cons, List.mem_cons] at hnd
      exact fun he => hnd.1 (Or.inl he)
    rw [insertCanon_comm m y.1 x.1 y.2 x.2 hxy]
  | trans h₁ h₂ ih₁ ih₂ =>
    intro m hnd
    rw [ih₁ m hnd]
    refine ih₂ m ?_
    exact ((h₁.map Prod.fst).nodup_iff).mp hnd

theorem foldl_insert_eq_canon (l : List (WorkKey × String)) :
    ∀ m : WorkMap, WMInv m →
      List.foldl (fun m p => WorkMap.insert_work_key m p.1 p.2) m l =
      List.foldl (fun m p => insertCanon m p.1 p.2) m l := by
  induction l with
  | nil =>
    intro m _
    rfl
  | cons x rest ih =>
    intro m hinv
    simp only [List.foldl_cons]
    rw [insert_work_key_eq_canon m x.1 x.2 hinv.1]
    exact ih _ (insertCanon_inv m x.1 x.2 hinv)

/-- A WorkMap built by inserting a list of (key, value) pairs into the
empty map, in list order (the declare/discover loop). -/
def buildWorkMap (l : List (WorkKey × String)) : WorkMap :=
  List.foldl (fun m p => WorkMap.insert_work_key m p.1 p.2) WorkMap.new l

theorem WMInv_new : WMInv WorkMap.new := by
  constructor
  · simp [SortedKeys, WorkMap.new]
  · intro p hp
    simp [WorkMap.new] at hp

theorem foldl_canon_inv (l : List (WorkKey × String)) :
    ∀ m : WorkMap, WMInv m →
      WMInv (List.foldl (fun m p => insertCanon m p.1 p.2) m l) := by
  induction l with
  | nil =>
    intro m h
    exact h
  | cons x rest ih =>
    intro m h
    exact ih _ (insertCanon_inv m x.1 x.2 h)

theorem buildWorkMap_perm (l₁ l₂ : List (WorkKey × String)) (h : l₁.Perm l₂)
    (hnd : (l₁.map Prod.fst).Nodup) : buildWorkMap l₁ = buildWorkMap l₂ := by
  rw [buildWorkMap, buildWorkMap, foldl_insert_eq_canon l₁ WorkMap.new WMInv_new,
      foldl_insert_eq_canon l₂ WorkMap.new WMInv_new]
  exact foldl_canon_perm h WorkMap.new hnd

theorem buildWorkMap_inv (l : List (WorkKey × String)) : WMInv (buildWorkMap l) := by
  rw [buildWorkMap, foldl_insert_eq_canon l WorkMap.new WMInv_new]
  exact foldl_canon_inv l WorkMap.new WMInv_new

/-- JSON string escaping for one character (backslash and quote). -/
def escapeChar (c : Char) : List Char :=
  if c = '\\' ∨ c = '"' then ['\\', c] else [c]

/-- JSON string escaping, the body of the string case of the encoder. -/
def escapeJson (s : String) : String :=
  String.mk (s.data.foldr (fun c acc => escapeChar c ++ acc) [])

/-- JSON encoding of one string value. -/
def jquote (s : String) : String := "\"" ++ escapeJson s ++ "\""

/-- json_encode at type KindMap: a TreeMap of strings encodes as a JSON
object whose fields appear in key order. -/
def encKindMap (km : KindMap) : String :=
  "\x7b" ++ String.intercalate "," (km.map (fun p => jquote p.1 ++ ":" ++ jquote p.2)) ++ "\x7d"

/-- json_encode at type WorkMap: the outer TreeMap encodes as a JSON
object whose fields appear in key order, values being kind maps. -/
def encWorkMap (m : WorkMap) : String :=
  "\x7b" ++ String.intercalate "," (m.map (fun p => jquote p.1 ++ ":" ++ encKindMap p.2)) ++ "\x7d"

/-- json_encode of the tuple (fn_name, declared_inputs): the database
cache key built in Database::prepare and Database::cache. -/
def json_encode_key (fn_name : String) (declared : WorkMap) : String :=
  "[" ++ jquote fn_name ++ "," ++ encWorkMap declared ++ "]"

/-- json_encode of the tuple (discovered_inputs, discovered_outputs,
result): the database record value built in Database::cache, with the
result already serialized. -/
def json_encode_value (di dout : WorkMap) (res : String) : String :=
  "[" ++ encWorkMap di ++ "," ++ encWorkMap dout ++ "," ++ res ++ "]"

/-- Claim C2: WorkMaps built by inserting the same set of
(kind, name, value) triples in any insertion order serialize to
byte-identical strings, hence yield byte-identical cache keys for any
function name, and the map entries are ordered by name and then by
kind. -/
theorem workmap_serialization_order_independent (fn_name : String)
    (l₁ l₂ : List (WorkKey × String)) (hp : l₁.Perm l₂)
    (hnd : (l₁.map Prod.fst).Nodup) :
    encWorkMap (buildWorkMap l₁) = encWorkMap (buildWorkMap l₂) ∧
    json_encode_key fn_name (buildWorkMap l₁) = json_encode_key fn_name (buildWorkMap l₂) ∧
    SortedKeys (buildWorkMap l₁) ∧
    (∀ p ∈ buildWorkMap l₁, SortedKeys p.2) := by
  have he : buildWorkMap l₁ = buildWorkMap l₂ := buildWorkMap_perm l₁ l₂ hp hnd
  have hinv := buildWorkMap_inv l₁
  exact ⟨by rw [he], by rw [he], hinv.1, hinv.2⟩

/-- Witness for C2 at a concrete pair of insertion orders. -/
theorem workmap_serialization_order_independent_witness :
    ([(WorkKey.mk "file" "b.c", "h1"), (WorkKey.mk "cfg" "a", "h2"), (WorkKey.mk "url" "b.c", "h3")].Perm
      [(WorkKey.mk "url" "b.c", "h3"), (WorkKey.mk "file" "b.c", "h1"), (WorkKey.mk "cfg" "a", "h2")] ∧
     ([(WorkKey.mk "file" "b.c", "h1"), (WorkKey.mk "cfg" "a", "h2"),
       (WorkKey.mk "url" "b.c", "h3")].map Prod.fst).Nodup) ∧
    (encWorkMap (buildWorkMap [(WorkKey.mk "file" "b.c", "h1"), (WorkKey.mk "cfg" "a", "h2"), (WorkKey.mk "url" "b.c", "h3")]) =
      encWorkMap (buildWorkMap [(WorkKey.mk "url" "b.c", "h3"), (WorkKey.mk "file" "b.c", "h1"), (WorkKey.mk "cfg" "a", "h2")]) ∧
     json_encode_key "compile" (buildWorkMap [(WorkKey.mk "file" "b.c", "h1"), (WorkKey.mk "cfg" "a", "h2"), (WorkKey.mk "url" "b.c", "h3")]) =
      json_encode_key "compile" (buildWorkMap [(WorkKey.mk "url" "b.c", "h3"), (WorkKey.mk "file" "b.c", "h1"), (WorkKey.mk "cfg" "a", "h2")]) ∧
     SortedKeys (buildWorkMap [(WorkKey.mk "file" "b.c", "h1"), (WorkKey.mk "cfg" "a", "h2"), (WorkKey.mk "url" "b.c", "h3")]) ∧
     (∀ p ∈ buildWorkMap [(WorkKey.mk "file" "b.c", "h1"), (WorkKey.mk "cfg" "a", "h2"), (WorkKey.mk "url" "b.c", "h3")], SortedKeys p.2)) :=
  ⟨⟨by decide, by decide⟩,
   workmap_serialization_order_independent "compile" _ _ (by decide) (by decide)⟩

/-- Characters of a JSON string literal up to the closing quote,
undoing the escaping; returns the remaining input. -/
def parseStrChars : List Char → Option (List Char × List Char)
  | [] => none
  | '\\' :: c :: rest => (parseStrChars rest).map (fun p => (c :: p.1, p.2))
  | '"' :: rest => some ([], rest)
  | c :: rest => (parseStrChars rest).map (fun p => (c :: p.1, p.2))

/-- Parse one JSON string literal. -/
def parseJStr : List Char → Option (String × List Char)
  | '"' :: rest => (parseStrChars rest).map (fun p => (String.mk p.1, p.2))
  | _ => none

/-- Parse one field of an encoded KindMap. -/
def parseKindEntry (cs : List Char) : Option ((String × String) × List Char) :=
  match parseJStr cs with
  | none => none
  | some (k, r1) =>
    match r1 with
    | ':' :: r2 =>
      match parseJStr r2 with
      | none => none
      | some (v, r3) => some ((k, v), r3)
    | _ => none

/-- Parse the remaining fields of an encoded KindMap. -/
def parseKindTail : Nat → List Char → Option (KindMap × List Char)
  | _, '\x7d' :: rest => some ([], rest)
  | fuel + 1, ',' :: rest =>
    match parseKindEntry rest with
    | none => none
    | some (e, r1) =>
      match parseKindTail fuel r1 with
      | none => none
      | some (es, r2) => some (e :: es, r2)
  | _, _ => none

/-- Parse an encoded KindMap. -/
def parseKindMap (fuel : Nat) (cs : List Char) : Option (KindMap × List Char) :=
  match cs with
  | '\x7b' :: '\x7d' :: rest => some ([], rest)
  | '\x7b' :: rest =>
    match parseKindEntry rest with
    | none => none
    | some (e, r1) =>
      match parseKindTail fuel r1 with
      | none => none
      | some (es, r2) => some (e :: es, r2)
  | _ => none

/-- Parse one field of an encoded WorkMap. -/
def parseWorkEntry (fuel : Nat) (cs : List Char) : Option ((String × KindMap) × List Char) :=
  match parseJStr cs with
  | none => none
  | some (n, r1) =>
    match r1 with
    | ':' :: r2 =>
      match parseKindMap fuel r2 with
      | none => none
      | some (km, r3) => some ((n, km), r3)
    | _ => none

/-- Parse the remaining fields of an encoded WorkMap. -/
def parseWorkTail : Nat → List Char → Option (WorkMap × List Char)
  | _, '\x7d' :: rest => some ([], rest)
  | fuel + 1, ',' :: rest =>
    match parseWorkEntry fuel rest with
    | none => none
    | some (e, r1) =>
      match parseWorkTail fuel r1 with
      | none => none
      | some (es, r2) => some (e :: es, r2)
  | _, _ => none

/-- Parse an encoded WorkMap. -/
def parseWorkMap (fuel : Nat) (cs : List Char) : Option (WorkMap × List Char) :=
  match cs with
  | '\x7b' :: '\x7d' :: rest => some ([], rest)
  | '\x7b' :: rest =>
    match parseWorkEntry fuel rest with
    | none => none
    | some (e, r1) =>
      match parseWorkTail fuel r1 with
      | none => none
      | some (es, r2) => some (e :: es, r2)
  | _ => none

/-- json_decode at the record value type (discovered_inputs,
discovered_outputs, result): inverse of json_encode_value. -/
def json_decode_value (s : String) : Option (WorkMap × WorkMap × String) :=
  match s.data with
  | '[' :: r0 =>
    match parseWorkMap s.data.length r0 with
    | none => none
    | some (di, r1) =>
      match r1 with
      | ',' :: r2 =>
        match parseWorkMap s.data.length r2 with
        | none => none
        | some (dout, r3) =>
          match r3 with
          | ',' :: r4 =>
            match parseJStr r4 with
            | none => none
            | some (res, r5) =>
              match r5 with
              | [']'] => some (di, dout, res)
              | _ => none
          | _ => none
      | _ => none
  | _ => none

/-- Failures of the engine: fail! with a message, or failure of the
spawned task running the body. -/
inductive Failure where
  | fatal : String → Failure
  | taskFailure : Failure
deriving DecidableEq

/-- The central store (struct Database): a file name, the in-memory
TreeMap from serialized keys to serialized records, and the dirty
flag. -/
structure Database where
  db_filename : String
  db_cache : List (String × String)
  db_dirty : Bool
deriving DecidableEq

/-- Database::prepare: look up the serialized (fn_name, declared_inputs)
key and decode the stored record; absence is not an error, an
undecodable record is a fatal failure (the unwrap inside json_decode). -/
def Database.prepare (db : Database) (fn_name : String) (declared_inputs : WorkMap) :
    Except Failure (Option (WorkMap × WorkMap × String)) :=
  match listFind (json_encode_key fn_name declared_inputs) db.db_cache with
  | none => Except.ok none
  | some v =>
    match json_decode_value v with
    | some t => Except.ok (some t)
    | none => Except.error (Failure.fatal "failed to decode workcache record")

/-- Database::cache: overwrite the record for the serialized key and
mark the store dirty. -/
def Database.cache (db : Database) (fn_name : String)
    (declared_inputs discovered_inputs discovered_outputs : WorkMap)
    (result : String) : Database :=
  { db with
    db_cache := listInsert (json_encode_key fn_name declared_inputs)
      (json_encode_value discovered_inputs discovered_outputs (jquote result)) db.db_cache,
    db_dirty := true }

/-- The registry from kind string to freshness predicate
(type FreshnessMap = TreeMap of function pointers). -/
abbrev FreshnessMap := List (String × (String → String → Bool))

/-- Per-invocation builder (struct Prep): function name plus the
declared inputs being assembled.  The context is passed to the
operations below as an explicit FreshnessMap and Database. -/
structure Prep where
  fn_name : String
  declared_inputs : WorkMap

/-- Prep::new. -/
def Prep.new (fn_name : String) : Prep := ⟨fn_name, WorkMap.new⟩

/-- Prep::declare_input. -/
def Prep.declare_input (p : Prep) (kind name value : String) : Prep :=
  { p with declared_inputs :=
      WorkMap.insert_work_key p.declared_inputs (WorkKey.mk kind name) value }

/-- Prep::is_fresh: look up the freshness function for the kind;
a missing entry is the fail! configuration error, otherwise the
predicate is applied to (name, value). -/
def Prep.is_fresh (fm : FreshnessMap) (cat kind name value : String) :
    Except Failure Bool :=
  match listFind kind fm with
  | none => Except.error (Failure.fatal ("missing freshness-function for '" ++ kind ++ "'"))
  | some f => Except.ok (f name value)

/-- Inner loop of Prep::all_fresh over one kind map. -/
def all_fresh_kinds (fm : FreshnessMap) (cat name : String) :
    KindMap → Except Failure Bool
  | [] => Except.ok true
  | (kind, value) :: rest =>
    match Prep.is_fresh fm cat kind name value with
    | Except.error e => Except.error e
    | Except.ok false => Except.ok false
    | Except.ok true => all_fresh_kinds fm cat name rest

/-- Prep::all_fresh: every fact of the map is fresh, with the early
return on the first stale fact. -/
def Prep.all_fresh (fm : FreshnessMap) (cat : String) :
    WorkMap → Except Failure Bool
  | [] => Except.ok true
  | (name, km) :: rest =>
    match all_fresh_kinds fm cat name km with
    | Except.error e => Except.error e
    | Except.ok false => Except.ok false
    | Except.ok true => Prep.all_fresh fm cat rest

/-- The three-group freshness conjunction of exec_work, with the
short-circuit order of the source: declared inputs, then the stored
discovered inputs, then the stored discovered outputs. -/
def Prep.freshTriple (fm : FreshnessMap) (p : Prep) (di dout : WorkMap) :
    Except Failure Bool :=
  match Prep.all_fresh fm "declared input" p.declared_inputs with
  | Except.error e => Except.error e
  | Except.ok false => Except.ok false
  | Except.ok true =>
    match Prep.all_fresh fm "discovered input" di with
    | Except.error e => Except.error e
    | Except.ok false => Except.ok false
    | Except.ok true => Prep.all_fresh fm "discovered output" dout

/-- Handle recording discoveries during a run (struct Exec). -/
structure Exec where
  discovered_inputs : WorkMap
  discovered_outputs : WorkMap

/-- The fresh Exec passed to a spawned body. -/
def Exec.new : Exec := ⟨WorkMap.new, WorkMap.new⟩

/-- Exec::discover_input. -/
def Exec.discover_input (e : Exec) (kind name value : String) : Exec :=
  { e with discovered_inputs :=
      WorkMap.insert_work_key e.discovered_inputs (WorkKey.mk kind name) value }

/-- Exec::discover_output. -/
def Exec.discover_output (e : Exec) (kind name value : String) : Exec :=
  { e with discovered_outputs :=
      WorkMap.insert_work_key e.discovered_outputs (WorkKey.mk kind name) value }

/-- enum Work: either a cached value or the outcome of the spawned
task; the Option stands for the port of the channel, none when the
spawned task failed before sending. -/
inductive Work (T : Type) where
  | WorkValue : T → Work T
  | WorkFromTask : Option (Exec × T) → Work T

/-- Prep::exec_work: consult the database, judge freshness of the three
groups when a record exists, and either return the cached result or
spawn the body with a fresh Exec. -/
def Prep.exec_work (fm : FreshnessMap) (p : Prep)
    (blk : Exec → Option (Exec × String)) (db : Database) :
    Except Failure (Work String) :=
  match Database.prepare db p.fn_name p.declared_inputs with
  | Except.error e => Except.error e
  | Except.ok (some (disc_in, disc_out, res)) =>
    match Prep.freshTriple fm p disc_in disc_out with
    | Except.error e => Except.error e
    | Except.ok true => Except.ok (Work.WorkValue res)
    | Except.ok false => Except.ok (Work.WorkFromTask (blk Exec.new))
  | Except.ok none => Except.ok (Work.WorkFromTask (blk Exec.new))

/-- Work::unwrap: a cached value is returned as is; the outcome of a
spawned task is committed to the database before being returned; a
failed task propagates the failure with no commit. -/
def Work.unwrap (p : Prep) (db : Database) :
    Work String → Except Failure String × Database
  | Work.WorkValue v => (Except.ok v, db)
  | Work.WorkFromTask none => (Except.error Failure.taskFailure, db)
  | Work.WorkFromTask (some (exe, v)) =>
    (Except.ok v, Database.cache db p.fn_name p.declared_inputs
      exe.discovered_inputs exe.discovered_outputs v)

/-- Prep::exec: exec_work followed by unwrap; the database is returned
alongside the result to make its final state explicit. -/
def Prep.exec (fm : FreshnessMap) (p : Prep)
    (blk : Exec → Option (Exec × String)) (db : Database) :
    Except Failure String × Database :=
  match Prep.exec_work fm p blk db with
  | Except.error e => (Except.error e, db)
  | Except.ok w => Work.unwrap p db w

/-- Declarative freshness of a whole WorkMap: every fact has a
registered predicate for its kind and that predicate accepts the
(name, value) pair. -/
def FactsFresh (fm : FreshnessMap) (m : WorkMap) : Prop :=
  ∀ p ∈ m, ∀ q ∈ p.2, ∃ f, listFind q.1 fm = some f ∧ f p.1 q.2 = true

theorem all_fresh_kinds_ok_true_iff (fm : FreshnessMap) (cat name : String)
    (km : KindMap) :
    all_fresh_kinds fm cat name km = Except.ok true ↔
      ∀ q ∈ km, ∃ f, listFind q.1 fm = some f ∧ f name q.2 = true := by
  induction km with
  | nil => simp [all_fresh_kinds]
  | cons q rest ih =>
    obtain ⟨kind, value⟩ := q
    cases hf : listFind kind fm with
    | none =>
      simp only [all_fresh_kinds, Prep.is_fresh, hf]
      constructor
      · intro h
        exact absurd h (by simp)
      · intro h
        obtain ⟨f, hf2, _⟩ := h (kind, value) (by simp)
        rw [hf] at hf2
        exact Option.noConfusion hf2
    | some f =>
      cases hb : f name value with
      | false =>
        simp only [all_fresh_kinds, Prep.is_fresh, hf, hb]
        constructor
        · intro h
          exact absurd h (by simp)
        · intro h
          obtain ⟨g, hg, hgb⟩ := h (kind, value) (by simp)
          rw [hf] at hg
          injection hg with hg
          rw [← hg] at hgb
          rw [hgb] at hb
          exact Bool.noConfusion hb
      | true =>
        simp only [all_fresh_kinds, Prep.is_fresh, hf, hb]
        rw [ih]
        constructor
        · intro h q hq
          rcases List.mem_cons.mp hq with he | hm
          · subst he
            exact ⟨f, hf, hb⟩
          · exact h q hm
        · intro h q hq
          exact h q (List.mem_cons_of_mem _ hq)

theorem all_fresh_ok_true_iff (fm : FreshnessMap) (cat : String) (m : WorkMap) :
    Prep.all_fresh fm cat m = Except.ok true ↔ FactsFresh fm m := by
  induction m with
  | nil => simp [Prep.all_fresh, FactsFresh]
  | cons p rest ih =>
    obtain ⟨name, km⟩ := p
    cases hk : all_fresh_kinds fm cat name km with
    | error e =>
      simp only [Prep.all_fresh, hk]
      constructor
      · intro h
        exact absurd h (by simp)
      · intro h
        have h2 : all_fresh_kinds fm cat name km = Except.ok true := by
          rw [all_fresh_kinds_ok_true_iff]
          intro q hq
          exact h (name, km) (by simp) q hq
        rw [hk] at h2
        exact Except.noConfusion h2
    | ok b =>
      cases b with
      | false =>
        simp only [Prep.all_fresh, hk]
        constructor
        · intro h
          exact absurd h (by simp)
        · intro h
          have h2 : all_fresh_kinds fm cat name km = Except.ok true := by
            rw [all_fresh_kinds_ok_true_iff]
            intro q hq
            exact h (name, km) (by simp) q hq
          rw [hk] at h2
          simp at h2
      | true =>
        simp only [Prep.all_fresh, hk]
        rw [ih]
        constructor
        · intro h p2 hp2 q hq
          rcases List.mem_cons.mp hp2 with he | hm
          · subst he
            exact ((all_fresh_kinds_ok_true_iff fm cat name km).mp hk) q hq
          · exact h p2 hm q hq
        · intro h p2 hp2 q hq
          exact h p2 (List.mem_cons_of_mem _ hp2) q hq

theorem freshTriple_ok_true_iff (fm : FreshnessMap) (p : Prep) (di dout : WorkMap) :
    Prep.freshTriple fm p di dout = Except.ok true ↔
      (FactsFresh fm p.declared_inputs ∧ FactsFresh fm di ∧ FactsFresh fm dout) := by
  rw [Prep.freshTriple]
  cases h1 : Prep.all_fresh fm "declared input" p.declared_inputs with
  | error e =>
    constructor
    · intro h
      exact absurd h (by simp)
    · rintro ⟨ha, _, _⟩
      rw [← all_fresh_ok_true_iff fm "declared input" p.declared_inputs, h1] at ha
      exact Except.noConfusion ha
  | ok b1 =>
    cases b1 with
    | false =>
      constructor
      · intro h
        exact absurd h (by simp)
      · rintro ⟨ha, _, _⟩
        rw [← all_fresh_ok_true_iff fm "declared input" p.declared_inputs, h1] at ha
        simp at ha
    | true =>
      have ha : FactsFresh fm p.declared_inputs :=
        (all_fresh_ok_true_iff fm "declared input" p.declared_inputs).mp h1
      cases h2 : Prep.all_fresh fm "discovered input" di with
      | error e =>
        constructor
        · intro h
          exact absurd h (by simp)
        · rintro ⟨_, hb, _⟩
          rw [← all_fresh_ok_true_iff fm "discovered input" di, h2] at hb
          exact Except.noConfusion hb
      | ok b2 =>
        cases b2 with
        | false =>
          constructor
          · intro h
            exact absurd h (by simp)
          · rintro ⟨_, hb, _⟩
            rw [← all_fresh_ok_true_iff fm "discovered input" di, h2] at hb
            simp at hb
        | true =>
          have hb : FactsFresh fm di :=
            (all_fresh_ok_true_iff fm "discovered input" di).mp h2
          simp only []
          rw [all_fresh_ok_true_iff fm "discovered output" dout]
          constructor
          · intro hc
            exact ⟨ha, hb, hc⟩
          · rintro ⟨_, _, hc⟩
            exact hc

/-- Claim C1: when the database holds a decodable prior record for the
serialized (function name, declared inputs) key and the freshness
evaluation of the three groups completes without a fatal error, the
call returns the cached result without invoking the body (uniformly in
the body) exactly when every fact in all three groups, the declared
inputs, the stored discovered inputs and the stored discovered
outputs, is judged fresh by the registered predicate for its kind; any
single stale fact forces the body to run. -/
theorem exec_hit_iff_all_fresh (fm : FreshnessMap) (p : Prep) (db : Database)
    (di dout : WorkMap) (res : String) (b : Bool)
    (hprep : Database.prepare db p.fn_name p.declared_inputs
      = Except.ok (some (di, dout, res)))
    (hfresh : Prep.freshTriple fm p di dout = Except.ok b) :
    (∀ blk : Exec → Option (Exec × String),
      Prep.exec fm p blk db = (Except.ok res, db)) ↔
    (FactsFresh fm p.declared_inputs ∧ FactsFresh fm di ∧ FactsFresh fm dout) := by
  have hiff := freshTriple_ok_true_iff fm p di dout
  cases b with
  | true =>
    have htrip := hiff.mp hfresh
    constructor
    · intro _
      exact htrip
    · intro _ blk
      simp [Prep.exec, Prep.exec_work, hprep, hfresh, Work.unwrap]
  | false =>
    constructor
    · intro hall
      have h1 := hall (fun _ => none)
      simp [Prep.exec, Prep.exec_work, hprep, hfresh, Work.unwrap] at h1
    · intro htrip
      have h2 := hiff.mpr htrip
      rw [hfresh] at h2
      simp at h2

/-- Sample freshness registry used by the witnesses. -/
def fmSample : FreshnessMap := [("file", fun _ value => value == "v1")]

/-- Sample Prep with one declared input, built through declare_input. -/
def prepSample : Prep := Prep.declare_input (Prep.new "build") "file" "a.txt" "v1"

/-- Sample database holding a committed record for the sample Prep. -/
def dbSample : Database :=
  Database.mk "db.json"
    [(json_encode_key "build" prepSample.declared_inputs,
      json_encode_value WorkMap.new WorkMap.new (jquote "r"))]
    false

/-- Witness for C1: on the sample database the hypotheses hold and the
second call returns the cached result for every body. -/
theorem exec_hit_iff_all_fresh_witness :
    (Database.prepare dbSample prepSample.fn_name prepSample.declared_inputs
        = Except.ok (some (WorkMap.new, WorkMap.new, "r")) ∧
     Prep.freshTriple fmSample prepSample WorkMap.new WorkMap.new = Except.ok true) ∧
    ((∀ blk : Exec → Option (Exec × String),
        Prep.exec fmSample prepSample blk dbSample = (Except.ok "r", dbSample)) ↔
     (FactsFresh fmSample prepSample.declared_inputs ∧
      FactsFresh fmSample WorkMap.new ∧ FactsFresh fmSample WorkMap.new)) :=
  ⟨⟨rfl, rfl⟩,
   exec_hit_iff_all_fresh fmSample prepSample dbSample WorkMap.new WorkMap.new "r" true rfl rfl⟩

/-- Claim C8: on a cache hit exec performs no database write and
updates nothing: the key-value map, the dirty flag, and the stored
record for the key are exactly the same after the call as before. -/
theorem exec_hit_frame (fm : FreshnessMap) (p : Prep) (db : Database)
    (di dout : WorkMap) (res : String) (blk : Exec → Option (Exec × String))
    (hprep : Database.prepare db p.fn_name p.declared_inputs
      = Except.ok (some (di, dout, res)))
    (hfresh : Prep.freshTriple fm p di dout = Except.ok true) :
    Prep.exec fm p blk db = (Except.ok res, db) ∧
    (Prep.exec fm p blk db).2.db_cache = db.db_cache ∧
    (Prep.exec fm p blk db).2.db_dirty = db.db_dirty ∧
    listFind (json_encode_key p.fn_name p.declared_inputs) (Prep.exec fm p blk db).2.db_cache
      = listFind (json_encode_key p.fn_name p.declared_inputs) db.db_cache := by
  have h1 : Prep.exec fm p blk db = (Except.ok res, db) := by
    simp [Prep.exec, Prep.exec_work, hprep, hfresh, Work.unwrap]
  exact ⟨h1, by rw [h1], by rw [h1], by rw [h1]⟩

/-- Witness for C8 with a body that would change the result and the
database if it ran. -/
theorem exec_hit_frame_witness :
    (Database.prepare dbSample prepSample.fn_name prepSample.declared_inputs
        = Except.ok (some (WorkMap.new, WorkMap.new, "r")) ∧
     Prep.freshTriple fmSample prepSample WorkMap.new WorkMap.new = Except.ok true) ∧
    (Prep.exec fmSample prepSample (fun e => some (e, "other")) dbSample
        = (Except.ok "r", dbSample) ∧
     (Prep.exec fmSample prepSample (fun e => some (e, "other")) dbSample).2.db_cache
        = dbSample.db_cache ∧
     (Prep.exec fmSample prepSample (fun e => some (e, "other")) dbSample).2.db_dirty
        = dbSample.db_dirty ∧
     listFind (json_encode_key prepSample.fn_name prepSample.declared_inputs)
        (Prep.exec fmSample prepSample (fun e => some (e, "other")) dbSample).2.db_cache
        = listFind (json_encode_key prepSample.fn_name prepSample.declared_inputs)
            dbSample.db_cache) :=
  ⟨⟨rfl, rfl⟩,
   exec_hit_frame fmSample prepSample dbSample WorkMap.new WorkMap.new "r"
     (fun e => some (e, "other")) rfl rfl⟩

/-- Claim C4: when the call is a miss (no prior record, or a prior
record with some stale fact) and the spawned body fails, the failure
propagates to the caller and the database is exactly as if the call
never happened, so the lookup for that key gives the same answer as
before. -/
theorem exec_body_failure_no_commit (fm : FreshnessMap) (p : Prep) (db : Database)
    (blk : Exec → Option (Exec × String))
    (hmiss : Database.prepare db p.fn_name p.declared_inputs = Except.ok none ∨
      ∃ di dout res,
        Database.prepare db p.fn_name p.declared_inputs
          = Except.ok (some (di, dout, res)) ∧
        Prep.freshTriple fm p di dout = Except.ok false)
    (hfail : blk Exec.new = none) :
    Prep.exec fm p blk db = (Except.error Failure.taskFailure, db) ∧
    Database.prepare (Prep.exec fm p blk db).2 p.fn_name p.declared_inputs
      = Database.prepare db p.fn_name p.declared_inputs := by
  have h1 : Prep.exec fm p blk db = (Except.error Failure.taskFailure, db) := by
    rcases hmiss with hnone | ⟨di, dout, res, hsome, hstale⟩
    · simp [Prep.exec, Prep.exec_work, hnone, hfail, Work.unwrap]
    · simp [Prep.exec, Prep.exec_work, hsome, hstale, hfail, Work.unwrap]
  exact ⟨h1, by rw [h1]⟩

/-- Witness for C4: empty database, failing body. -/
theorem exec_body_failure_no_commit_witness :
    ((Database.prepare (Database.mk "db.json" [] false) prepSample.fn_name
        prepSample.declared_inputs = Except.ok none ∨
      ∃ di dout res,
        Database.prepare (Database.mk "db.json" [] false) prepSample.fn_name
          prepSample.declared_inputs = Except.ok (some (di, dout, res)) ∧
        Prep.freshTriple fmSample prepSample di dout = Except.ok false) ∧
     (fun _ : Exec => (none : Option (Exec × String))) Exec.new = none) ∧
    (Prep.exec fmSample prepSample (fun _ => none) (Database.mk "db.json" [] false)
        = (Except.error Failure.taskFailure, Database.mk "db.json" [] false) ∧
     Database.prepare (Prep.exec fmSample prepSample (fun _ => none)
          (Database.mk "db.json" [] false)).2 prepSample.fn_name prepSample.declared_inputs
        = Database.prepare (Database.mk "db.json" [] false) prepSample.fn_name
            prepSample.declared_inputs) :=
  ⟨⟨Or.inl rfl, rfl⟩,
   exec_body_failure_no_commit fmSample prepSample (Database.mk "db.json" [] false)
     (fun _ => none) (Or.inl rfl) rfl⟩

/-- Claim C5: evaluating freshness of a fact whose kind has no entry in
the freshness registry fails with the fatal error naming the kind, and
never returns a fresh or stale verdict. -/
theorem missing_freshness_function_fatal (fm : FreshnessMap)
    (cat kind name value : String) (h : listFind kind fm = none) :
    Prep.is_fresh fm cat kind name value
      = Except.error (Failure.fatal ("missing freshness-function for '" ++ kind ++ "'")) ∧
    ∀ b : Bool, Prep.is_fresh fm cat kind name value ≠ Except.ok b := by
  have h1 : Prep.is_fresh fm cat kind name value
      = Except.error (Failure.fatal ("missing freshness-function for '" ++ kind ++ "'")) := by
    rw [Prep.is_fresh, h]
  refine ⟨h1, ?_⟩
  intro b hb
  rw [h1] at hb
  exact Except.noConfusion hb

/-- Witness for C5: a registry with only the call kind, asked about the
file kind, mirroring the registry set up in context.rs. -/
theorem missing_freshness_function_fatal_witness :
    (listFind "file" [("call", fun (_ _ : String) => true)] = none) ∧
    (Prep.is_fresh [("call", fun _ _ => true)] "declared input" "file" "a.txt" "v1"
      = Except.error (Failure.fatal ("missing freshness-function for '" ++ "file" ++ "'")) ∧
    ∀ b : Bool, Prep.is_fresh [("call", fun _ _ => true)] "declared input" "file" "a.txt" "v1"
      ≠ Except.ok b) :=
  ⟨rfl,
   missing_freshness_function_fatal [("call", fun _ _ => true)] "declared input"
     "file" "a.txt" "v1" rfl⟩

/-- File system model: map from path to file contents. -/
abbrev FileSys := List (String × String)

/-- Path::exists. -/
def pathExists (fs : FileSys) (p : String) : Bool := (listFind p fs).isSome

/-- digest_path: open the file, read its contents and hash them; fails
when the file cannot be opened.  The content hash function (std hash
followed by to_str_radix 16) is a parameter of the model. -/
def digest_path (hash : String → String) (fs : FileSys) (path : String) : Option String :=
  (listFind path fs).map hash

/-- struct CachedPath: a path together with the content digest and the
last-modified stamp taken when it was declared or discovered. -/
structure CachedPath where
  path : String
  digest : String
  modified : Nat
deriving DecidableEq

/-- CachedPath::exists. -/
def CachedPath.existsOnDisk (cp : CachedPath) (fs : FileSys) : Bool :=
  pathExists fs cp.path

/-- CachedPath::is_fresh: the path still exists and the stored digest
equals the current digest of its contents.  The none arm of the match
mirrors the unwrap in the source, which is unreachable because of the
short-circuit on exists. -/
def CachedPath.is_fresh (hash : String → String) (fs : FileSys) (cp : CachedPath) : Bool :=
  cp.existsOnDisk fs &&
    match digest_path hash fs cp.path with
    | some d => cp.digest == d
    | none => false

/-- enum CallArg: a literal string, a content-hashed input path, or a
plain output path. -/
inductive CallArg where
  | Str : String → CallArg
  | InputPath : CachedPath → CallArg
  | OutputPath : String → CallArg
deriving DecidableEq

/-- CallArg::is_fresh: literals are always fresh, input paths check
existence plus digest, output paths check existence only. -/
def CallArg.is_fresh (hash : String → String) (fs : FileSys) : CallArg → Bool
  | CallArg.Str _ => true
  | CallArg.InputPath p => CachedPath.is_fresh hash fs p
  | CallArg.OutputPath p => pathExists fs p

/-- struct Call: the program plus the ordered argument tokens. -/
structure Call where
  prog : CallArg
  args : List CallArg
deriving DecidableEq

/-- Call::is_fresh: the conjunction over the argument tokens.  The
program field is not consulted. -/
def Call.is_fresh (hash : String → String) (fs : FileSys) (c : Call) : Bool :=
  c.args.all (CallArg.is_fresh hash fs)

theorem cachedPath_fresh_charact (hash : String → String) (fs : FileSys) (cp : CachedPath) :
    CachedPath.is_fresh hash fs cp = true ↔
      pathExists fs cp.path = true ∧ digest_path hash fs cp.path = some cp.digest := by
  rw [CachedPath.is_fresh, CachedPath.existsOnDisk]
  cases hfind : digest_path hash fs cp.path with
  | none =>
    constructor
    · intro h
      simp at h
    · rintro ⟨h1, h2⟩
      exact Option.noConfusion h2
  | some d =>
    simp only [Bool.and_eq_true, beq_iff_eq, Option.some.injEq]
    constructor
    · rintro ⟨h1, h2⟩
      exact ⟨h1, h2.symm⟩
    · rintro ⟨h1, h2⟩
      exact ⟨h1, h2.symm⟩

/-- Claim C6: a content-hash-of-path fact is judged fresh exactly when
the path still exists and the current content digest equals the stored
digest; the stored modified stamp plays no part in the verdict. -/
theorem cached_path_fresh_iff_digest (hash : String → String) (fs : FileSys)
    (cp : CachedPath) :
    (CachedPath.is_fresh hash fs cp = true ↔
      pathExists fs cp.path = true ∧ digest_path hash fs cp.path = some cp.digest) ∧
    (∀ m1 m2 : Nat,
      CachedPath.is_fresh hash fs (CachedPath.mk cp.path cp.digest m1)
        = CachedPath.is_fresh hash fs (CachedPath.mk cp.path cp.digest m2)) :=
  ⟨cachedPath_fresh_charact hash fs cp, fun _ _ => rfl⟩

/-- Claim C7: an output-path fact is judged fresh exactly when the path
exists on disk; the contents are never re-hashed, so replacing the
contents of an existing output leaves the verdict fresh. -/
theorem output_path_fresh_iff_exists (hash : String → String) (fs : FileSys)
    (p : String) :
    (CallArg.is_fresh hash fs (CallArg.OutputPath p) = pathExists fs p) ∧
    (∀ c1 c2 : String,
      CallArg.is_fresh hash (listInsert p c1 fs) (CallArg.OutputPath p)
        = CallArg.is_fresh hash (listInsert p c2 fs) (CallArg.OutputPath p) ∧
      CallArg.is_fresh hash (listInsert p c1 fs) (CallArg.OutputPath p) = true) := by
  refine ⟨rfl, ?_⟩
  intro c1 c2
  have h1 : CallArg.is_fresh hash (listInsert p c1 fs) (CallArg.OutputPath p) = true := by
    simp [CallArg.is_fresh, pathExists, listFind_insert_self]
  have h2 : CallArg.is_fresh hash (listInsert p c2 fs) (CallArg.OutputPath p) = true := by
    simp [CallArg.is_fresh, pathExists, listFind_insert_self]
  exact ⟨by rw [h1, h2], h1⟩

/-- Counterexample to claim C3 as stated: a call whose program fact is
stale (the program file is gone from the file system) but whose
argument facts are all fresh is nevertheless judged fresh by
Call::is_fresh, because the program field is never consulted. -/
theorem call_fresh_ignores_prog_counterexample :
    ¬ (Call.is_fresh (fun s => s) [("in.c", "x")]
          (Call.mk (CallArg.InputPath (CachedPath.mk "gcc" "d" 0))
            [CallArg.Str "-c", CallArg.InputPath (CachedPath.mk "in.c" "x" 0),
             CallArg.OutputPath "in.c"]) = true ↔
       (CallArg.is_fresh (fun s => s) [("in.c", "x")]
          (CallArg.InputPath (CachedPath.mk "gcc" "d" 0)) = true ∧
        List.all [CallArg.Str "-c", CallArg.InputPath (CachedPath.mk "in.c" "x" 0),
             CallArg.OutputPath "in.c"]
          (CallArg.is_fresh (fun s => s) [("in.c", "x")]) = true)) := by
  decide

/-- Claim C3 as amended: the call freshness predicate returns true
exactly when every argument token is fresh per its kind (literals
always fresh, input paths fresh when the path exists and the digest
matches, output paths fresh when the path exists); the program path
fact is not part of the conjunction. -/
theorem call_fresh_iff_args_fresh (hash : String → String) (fs : FileSys) (c : Call) :
    Call.is_fresh hash fs c = true ↔
      ∀ arg ∈ c.args,
        (match arg with
         | CallArg.Str _ => True
         | CallArg.InputPath p =>
             pathExists fs p.path = true ∧ digest_path hash fs p.path = some p.digest
         | CallArg.OutputPath p => pathExists fs p = true) := by
  rw [Call.is_fresh, List.all_eq_true]
  constructor
  · intro h arg ha
    have h2 := h arg ha
    cases arg with
    | Str s => trivial
    | InputPath p =>
      simp only [CallArg.is_fresh] at h2
      exact (cachedPath_fresh_charact hash fs p).mp h2
    | OutputPath p =>
      simp only [CallArg.is_fresh] at h2
      exact h2
  · intro h arg ha
    have h2 := h arg ha
    cases arg with
    | Str s => rfl
    | InputPath p =>
      simp only [CallArg.is_fresh]
      exact (cachedPath_fresh_charact hash fs p).mpr h2
    | OutputPath p =>
      simp only [CallArg.is_fresh]
      exact h2

/-- JSON values, the subset relevant to the persisted store. -/
inductive Json where
  | str : String → Json
  | num : Int → Json
  | obj : List (String × Json) → Json
  | arr : List Json → Json

/-- Database::save: to_json of the in-memory TreeMap of strings, an
object whose fields are the entries in key order, written to the store
file.  The textual pretty printing and re-parsing belong to the
serialize json library and are modeled as transporting the JSON
value. -/
def Database.save (db : Database) : Json :=
  Json.obj (db.db_cache.map (fun p => (p.1, Json.str p.2)))

/-- Decodable::decode at the TreeMap of strings, field list level:
every field value must be a string. -/
def decodeStrPairs : List (String × Json) → Option (List (String × String))
  | [] => some []
  | (k, Json.str v) :: rest => (decodeStrPairs rest).map (fun l => (k, v) :: l)
  | _ => none

/-- Database::load: decode the stored JSON into the in-memory map,
replacing db_cache; any other shape fails decoding (the fail! branch of
the source). -/
def Database.load (db : Database) (j : Json) : Option Database :=
  match j with
  | Json.obj l => (decodeStrPairs l).map (fun c => { db with db_cache := c })
  | _ => none

/-- Claim C9: saving a database and loading the result into another
database reproduces the key-value mapping exactly: every pair present
before the round trip is present afterwards and no pair is added. -/
theorem database_save_load_roundtrip (db db0 : Database) :
    Database.load db0 (Database.save db)
      = some (Database.mk db0.db_filename db.db_cache db0.db_dirty) ∧
    (∀ k v : String, (k, v) ∈ db.db_cache ↔
      (k, v) ∈ (Database.mk db0.db_filename db.db_cache db0.db_dirty).db_cache) := by
  have h : ∀ l : List (String × String),
      decodeStrPairs (l.map (fun p => (p.1, Json.str p.2))) = some l := by
    intro l
    induction l with
    | nil => rfl
    | cons p rest ih =>
      obtain ⟨k, v⟩ := p
      simp [decodeStrPairs, ih]
  constructor
  · rw [Database.save, Database.load, h]
    rfl
  · intro k v
    exact Iff.rfl

/-- Operations performed on the shared database during the life of a
context. -/
inductive DbOp where
  | cacheOp : String → WorkMap → WorkMap → WorkMap → String → DbOp
  | saveOp : DbOp
  | prepareOp : String → WorkMap → DbOp

/-- State transition of the database for each operation: save takes the
database by shared reference and mutates no field (the FIXME in the
source records that it does not clear db_dirty); prepare is a read. -/
def stepDb (db : Database) : DbOp → Database
  | DbOp.cacheOp fn d di dout res => Database.cache db fn d di dout res
  | DbOp.saveOp => db
  | DbOp.prepareOp _ _ => db

/-- Drop for Database: at teardown the store is saved exactly when the
dirty flag is set. -/
def Database.dropSave (db : Database) : Option Json :=
  if db.db_dirty then some (Database.save db) else none

/-- Claim C10: save leaves every field of the database unchanged, the
dirty flag is set by a successful store and never cleared by any later
operation, so once a record has been committed the database stays dirty
and is saved again at teardown even when save was already invoked. -/
theorem save_frame_dirty_persists (db : Database) (ops : List DbOp)
    (h : db.db_dirty = true) :
    (∀ d : Database, stepDb d DbOp.saveOp = d) ∧
    (∀ (d : Database) (fn : String) (dcl di dout : WorkMap) (res : String),
      (Database.cache d fn dcl di dout res).db_dirty = true) ∧
    (List.foldl stepDb db ops).db_dirty = true ∧
    Database.dropSave (List.foldl stepDb db ops)
      = some (Database.save (List.foldl stepDb db ops)) := by
  have hmono : ∀ (ops : List DbOp) (d : Database), d.db_dirty = true →
      (List.foldl stepDb d ops).db_dirty = true := by
    intro ops
    induction ops with
    | nil =>
      intro d hd
      exact hd
    | cons op rest ih =>
      intro d hd
      simp only [List.foldl_cons]
      apply ih
      cases op with
      | cacheOp fn dcl di dout res => rfl
      | saveOp => exact hd
      | prepareOp fn dcl => exact hd
  refine ⟨fun d => rfl, fun d fn dcl di dout res => rfl, hmono ops db h, ?_⟩
  simp [Database.dropSave, hmono ops db h]

/-- Witness for C10: a dirty database stays dirty and is saved at
teardown across a trace that already contains an explicit save. -/
theorem save_frame_dirty_persists_witness :
    ((Database.mk "db.json" [("k", "v")] true).db_dirty = true) ∧
    ((∀ d : Database, stepDb d DbOp.saveOp = d) ∧
     (∀ (d : Database) (fn : String) (dcl di dout : WorkMap) (res : String),
       (Database.cache d fn dcl di dout res).db_dirty = true) ∧
     (List.foldl stepDb (Database.mk "db.json" [("k", "v")] true)
        [DbOp.saveOp, DbOp.prepareOp "f" WorkMap.new]).db_dirty = true ∧
     Database.dropSave (List.foldl stepDb (Database.mk "db.json" [("k", "v")] true)
        [DbOp.saveOp, DbOp.prepareOp "f" WorkMap.new])
       = some (Database.save (List.foldl stepDb (Database.mk "db.json" [("k", "v")] true)
           [DbOp.saveOp, DbOp.prepareOp "f" WorkMap.new]))) :=
  ⟨rfl,
   save_frame_dirty_persists (Database.mk "db.json" [("k", "v")] true)
     [DbOp.saveOp, DbOp.prepareOp "f" WorkMap.new] rfl⟩
